/-
Formal verification of the commdio acoustic FSK modem.

Shallow embedding notes.
The Python scripts compute with IEEE floats and numpy arrays; we embed
sample buffers as `List ℚ` and scalar arithmetic as exact rational
arithmetic (for the constants appearing in the repository, `44100 * 0.01`
and the derived quantities are exact in float64, so the rational model
agrees with the float execution on the window bookkeeping).  The
transcendental `np.sin(2 * np.pi * x)` is embedded as an abstract sampled
sine `s : ℚ → ℚ`: every definition is parametric in `s`, where `s x`
stands for `sin(2 * pi * x)` (the argument is the phase in cycles).
Fallible numpy operations (negative sample counts for `np.linspace`,
shape mismatch in elementwise products, division by zero) are embedded in
`Except String`.  Python strings of bits are embedded as `List Char`.
-/
import Mathlib

set_option maxRecDepth 10000

namespace Commdio

/-- Python `int(x)` applied to a real quantity: truncation toward zero. -/
def pyTrunc (q : ℚ) : ℤ := if q < 0 then -Int.floor (-q) else Int.floor q

/-- Module-level constant `sample_rate = 44100` of receiver.py / transmitter.py. -/
def sample_rate : ℚ := 44100

/-- Module-level constant `bit_duration = 0.01` of receiver.py / transmitter.py. -/
def bit_duration : ℚ := 1 / 100

/-- The sample list produced by
`np.sin(2*np.pi*frequency*np.linspace(0, duration, int(sample_rate*duration), endpoint=False))`:
`N = int(sample_rate * duration)` samples, the i-th at time `t_i = i * duration / N`,
with value `s (frequency * t_i)` (recall `s x` embeds `sin(2*pi*x)`). -/
def sineSamples (s : ℚ → ℚ) (frequency duration sr : ℚ) : List ℚ :=
  (List.range (pyTrunc (sr * duration)).toNat).map
    (fun (i : ℕ) => s (frequency * (duration * (i : ℚ) / ((pyTrunc (sr * duration)).toNat : ℚ))))

/-- `generate_sine_wave(frequency, duration, sample_rate)` of receiver.py /
transmitter.py / sample.py.  `np.linspace` raises `ValueError` when the
requested number of samples `int(sample_rate * duration)` is negative;
otherwise the sampled sine is returned. -/
def generate_sine_wave (s : ℚ → ℚ) (frequency duration sr : ℚ) : Except String (List ℚ) :=
  if pyTrunc (sr * duration) < 0 then
    .error "ValueError: Number of samples must be non-negative"
  else
    .ok (sineSamples s frequency duration sr)

/-- Modelled from the spec (section 4.1), for comparison with the code:
`N = floor(sample_rate * duration)` samples at times `t_i = i / sample_rate`,
amplitude `sin(2*pi*frequency*t_i)`. -/
def specSineWave (s : ℚ → ℚ) (frequency duration sr : ℚ) : List ℚ :=
  (List.range (pyTrunc (sr * duration)).toNat).map
    (fun (i : ℕ) => s (frequency * ((i : ℚ) / sr)))

/-- The loop of `generate_fsk_signal` of transmitter.py: for each character of
`data`, append the high tone burst if it is '1' and the low tone burst
otherwise.  The inner `generate_sine_wave(freq, duration)` calls leave
`sample_rate` at its default, which Python bound to the module constant
44100 when the function was defined. -/
def fskSignalChunks (s : ℚ → ℚ) (fh fl d : ℚ) : List Char → Except String (List ℚ)
  | [] => .ok []
  | c :: rest =>
    match generate_sine_wave s (if c = '1' then fh else fl) d sample_rate,
          fskSignalChunks s fh fl d rest with
    | .ok chunk, .ok sig => .ok (chunk ++ sig)
    | .error e, _ => .error e
    | .ok _, .error e => .error e

/-- `generate_fsk_signal(data, freq_high, freq_low, sample_rate, duration)` of
transmitter.py.  Before the loop the function evaluates
`np.linspace(0, duration, int(sample_rate*duration), endpoint=False)`
(the result is unused, but a negative sample count raises there), then
concatenates one tone burst per character of `data`. -/
def generate_fsk_signal (s : ℚ → ℚ) (data : List Char) (fh fl sr d : ℚ)
    : Except String (List ℚ) :=
  if pyTrunc (sr * d) < 0 then
    .error "ValueError: Number of samples must be non-negative"
  else
    fskSignalChunks s fh fl d data

/-- Rectified correlation `np.sum(np.abs(a * b))` for equal-length arrays. -/
def energy (a b : List ℚ) : ℚ := (List.zipWith (fun x y => |x * y|) a b).sum

/-- `np.sum(np.abs(a * b))` with numpy broadcasting: equal lengths multiply
elementwise, a length-1 operand broadcasts, anything else raises. -/
def npAbsMulSum (a b : List ℚ) : Except String ℚ :=
  if a.length = b.length then .ok (energy a b)
  else if a.length = 1 then .ok ((b.map (fun y => |a.headI * y|)).sum)
  else if b.length = 1 then .ok ((a.map (fun x => |x * b.headI|)).sum)
  else .error "ValueError: operands could not be broadcast together"

/-- The classification of one window of `fsk_demodulate` of receiver.py,
given the two energies: threshold `T = (eh + el) * threshold_factor`; append
'1' when `eh > T` and `el < T`, append '0' when `el > T` and `eh < T`,
otherwise append nothing. -/
def windowEmit (θ eh el : ℚ) : List Char :=
  if eh > (eh + el) * θ ∧ el < (eh + el) * θ then ['1']
  else if el > (eh + el) * θ ∧ eh < (eh + el) * θ then ['0']
  else []

/-- The body of the per-window loop of `fsk_demodulate` of receiver.py.
The reference tones are `generate_sine_wave(freq_high)` and
`generate_sine_wave(freq_low)`: duration and sample rate stay at their
defaults, which Python bound to the module constants 0.01 and 44100 when
`generate_sine_wave` was defined — not to the demodulator's own arguments. -/
def demodWindow (s : ℚ → ℚ) (fh fl θ : ℚ) (w : List ℚ) : Except String (List Char) := do
  let refHigh ← generate_sine_wave s fh bit_duration sample_rate
  let refLow ← generate_sine_wave s fl bit_duration sample_rate
  let eh ← npAbsMulSum w refHigh
  let el ← npAbsMulSum w refLow
  pure (windowEmit θ eh el)

/-- The `for i in range(n)` loop of `fsk_demodulate`, accumulating the emitted
characters; an exception in an iteration aborts the whole call. -/
def demodLoop (step : ℕ → Except String (List Char)) : ℕ → Except String (List Char)
  | 0 => .ok []
  | n + 1 =>
    match demodLoop step n, step n with
    | .ok acc, .ok e => .ok (acc ++ e)
    | .error msg, _ => .error msg
    | .ok _, .error msg => .error msg

/-- `fsk_demodulate(received_signal, freq_high, freq_low, bit_duration,
sample_rate, threshold_factor)` of receiver.py:
`num_bits = int(len(received_signal) / (sample_rate * bit_duration))` windows,
window `i` being the slice from `int(i * sample_rate * bit_duration)` to
`int((i+1) * sample_rate * bit_duration)`. -/
def fsk_demodulate (s : ℚ → ℚ) (received_signal : List ℚ) (fh fl bd sr θ : ℚ)
    : Except String (List Char) :=
  if sr * bd = 0 then .error "ZeroDivisionError: float division by zero"
  else
    demodLoop
      (fun i =>
        demodWindow s fh fl θ
          ((received_signal.drop (pyTrunc ((i : ℚ) * sr * bd)).toNat).take
            ((pyTrunc (((i : ℚ) + 1) * sr * bd)).toNat - (pyTrunc ((i : ℚ) * sr * bd)).toNat)))
      (pyTrunc ((received_signal.length : ℚ) / (sr * bd))).toNat

/-! Byte/ASCII reassembly, from the while-loop of `fsk_demodulate` of sample.py. -/

/-- Python `int(byte_string, 2)` on a string of binary digits: `ValueError`
unless every character is '0' or '1' and the string is nonempty. -/
def parseBin : List Char → Except String ℕ
  | [] => .error "ValueError: invalid literal for int() with base 2"
  | cs =>
    if cs.all (fun c => c = '0' ∨ c = '1') then
      .ok (cs.foldl (fun a c => 2 * a + (if c = '1' then 1 else 0)) 0)
    else .error "ValueError: invalid literal for int() with base 2"

/-- The `try: ascii_char = chr(int(byte_string, 2)) ... except ValueError:` body of
sample.py: parse the 8 characters as a base-2 integer and take the character
of that codepoint, substituting '?' when a `ValueError` is raised.  Python's
`chr` raises exactly for codepoints at or above `0x110000` (values reached
from 8 bits are at most 255, so that guard never fires). -/
def tryByteChar (cs : List Char) : Char :=
  match parseBin cs with
  | .ok v => if v < 1114112 then Char.ofNat v else '?'
  | .error _ => '?'

/-- The `while len(demodulated_bits) >= 8:` loop of sample.py: split off the
first 8 bits, convert, append the character, and keep the residue.  The
recursion is driven by a fuel argument (the loop removes 8 characters per
iteration, so `bits.length` steps always suffice). -/
def bitsToAsciiAux : ℕ → List Char → List Char → List Char × List Char
  | 0, bits, acc => (bits, acc)
  | fuel + 1, bits, acc =>
    if 8 ≤ bits.length then
      bitsToAsciiAux fuel (bits.drop 8) (acc ++ [tryByteChar (bits.take 8)])
    else (bits, acc)

/-- The byte/ASCII assembler of sample.py applied to a buffered bit string:
returns the residual bits (fewer than 8) and the characters appended to the
accumulated string. -/
def bits_to_ascii (bits : List Char) : List Char × List Char :=
  bitsToAsciiAux bits.length bits []

/-! Text-to-bits encoding of transmitter.py:
`data_binary = bin(int.from_bytes(data.encode(), 'big'))`. -/

/-- `int.from_bytes(bytes, 'big')`: the big-endian value of a byte sequence. -/
def bytesToNat (bytes : List ℕ) : ℕ := bytes.foldl (fun a b => 256 * a + b) 0

/-- Fuel-driven computation of the binary digits of `n`, most significant
first, with no leading zeros (empty for `n = 0`). -/
def natBitsAux : ℕ → ℕ → List Bool
  | 0, _ => []
  | _, 0 => []
  | fuel + 1, n + 1 => natBitsAux fuel ((n + 1) / 2) ++ [(n + 1) % 2 == 1]

/-- The binary digits of `n`, most significant first, no leading zeros. -/
def natBits (n : ℕ) : List Bool := natBitsAux n n

/-- The digits part of Python `bin(n)` for `n >= 0`: the binary digits with
leading zeros elided, except that `bin(0)` has the single digit '0'. -/
def pyBinDigits (n : ℕ) : List Char :=
  if n = 0 then ['0'] else (natBits n).map (fun b => if b then '1' else '0')

/-- Python `bin(n)` for `n >= 0`: the characters '0', 'b', then the digits. -/
def pyBin (n : ℕ) : List Char := '0' :: 'b' :: pyBinDigits n

/-- The 8 bits of a byte, most significant first. -/
def byteBits (b : ℕ) : List Bool := (List.range 8).map (fun i => b / 2 ^ (7 - i) % 2 == 1)

/-- The value of a bit list read most significant bit first. -/
def bitsVal (bits : List Bool) : ℕ := bits.foldl (fun a b => 2 * a + b.toNat) 0

/-! Audio capture pipeline of receiver.py: bounded queue and producer callback. -/

/-- State shared between the capture callback and the consumer loop: the
queued audio blocks and the diagnostics printed so far. -/
structure CaptureState (α : Type) where
  queue : List α
  log : List String

/-- `queue.Queue(maxsize).put_nowait(x)`: raises `queue.Full` when a bounded
queue is at capacity, otherwise appends at the tail. -/
def put_nowait (maxsize : ℕ) (q : List α) (x : α) : Except String (List α) :=
  if 0 < maxsize ∧ maxsize ≤ q.length then .error "queue.Full"
  else .ok (q ++ [x])

/-- `audio_callback` of receiver.py: on a reported stream error, print a
diagnostic and return without enqueueing; otherwise `put_nowait` the block
into the queue created with `maxsize=100` by `stream_audio`, and on
`queue.Full` print "Queue full" and return.  The result is `Except`-valued
to record that no exception escapes to the audio subsystem. -/
def audio_callback (status : ℕ) (indata : α) (st : CaptureState α)
    : Except String (CaptureState α) :=
  if status ≠ 0 then .ok (CaptureState.mk st.queue (st.log ++ ["Error in audio stream"]))
  else
    match put_nowait 100 st.queue indata with
    | .ok q => .ok (CaptureState.mk q st.log)
    | .error _ => .ok (CaptureState.mk st.queue (st.log ++ ["Queue full"]))

/-! Basic lemmas about the embedded primitives. -/

theorem pyTrunc_natCast (n : ℕ) : pyTrunc (n : ℚ) = n := by
  unfold pyTrunc
  rw [if_neg (not_lt.mpr (by positivity : (0 : ℚ) ≤ (n : ℚ)))]
  exact Int.floor_natCast n

theorem pyTrunc_natCast_div (n L : ℕ) (hL : 0 < L) :
    pyTrunc ((n : ℚ) / (L : ℚ)) = ((n / L : ℕ) : ℤ) := by
  have hLQ : (0 : ℚ) < (L : ℚ) := by exact_mod_cast hL
  unfold pyTrunc
  rw [if_neg (not_lt.mpr (by positivity : (0 : ℚ) ≤ (n : ℚ) / (L : ℚ)))]
  rw [Int.floor_eq_iff]
  constructor
  · rw [le_div_iff₀ hLQ]
    have h1 : (n / L) * L ≤ n := Nat.div_mul_le_self n L
    exact_mod_cast h1
  · rw [div_lt_iff₀ hLQ]
    have h2 : n < (n / L + 1) * L := by
      have hmod := Nat.div_add_mod n L
      have hlt : n % L < L := Nat.mod_lt n hL
      calc n = L * (n / L) + n % L := hmod.symm
        _ < L * (n / L) + L := Nat.add_lt_add_left hlt _
        _ = (n / L + 1) * L := by ring
    exact_mod_cast h2

theorem generate_sine_wave_ok (s : ℚ → ℚ) (f d sr : ℚ) (h : 0 ≤ pyTrunc (sr * d)) :
    generate_sine_wave s f d sr = .ok (sineSamples s f d sr) := by
  unfold generate_sine_wave
  rw [if_neg (not_lt.mpr h)]

theorem sineSamples_length (s : ℚ → ℚ) (f d sr : ℚ) :
    (sineSamples s f d sr).length = (pyTrunc (sr * d)).toNat := by
  rw [sineSamples, List.length_map, List.length_range]

theorem ref_trunc : pyTrunc (sample_rate * bit_duration) = 441 := by
  have h : sample_rate * bit_duration = ((441 : ℕ) : ℚ) := by
    norm_num [sample_rate, bit_duration]
  rw [h, pyTrunc_natCast]
  simp

theorem refTone_length (s : ℚ → ℚ) (f : ℚ) :
    (sineSamples s f bit_duration sample_rate).length = 441 := by
  rw [sineSamples_length, ref_trunc]
  rfl

theorem demodWindow_eq (s : ℚ → ℚ) (fh fl θ : ℚ) (w : List ℚ) (hw : w.length = 441) :
    demodWindow s fh fl θ w =
      .ok (windowEmit θ (energy w (sineSamples s fh bit_duration sample_rate))
        (energy w (sineSamples s fl bit_duration sample_rate))) := by
  have h441 : 0 ≤ pyTrunc (sample_rate * bit_duration) := by rw [ref_trunc]; norm_num
  rw [demodWindow, generate_sine_wave_ok s fh bit_duration sample_rate h441,
    generate_sine_wave_ok s fl bit_duration sample_rate h441]
  have hh : w.length = (sineSamples s fh bit_duration sample_rate).length := by
    rw [refTone_length, hw]
  have hl : w.length = (sineSamples s fl bit_duration sample_rate).length := by
    rw [refTone_length, hw]
  simp only [bind, Except.bind, npAbsMulSum, if_pos hh, if_pos hl, pure, Except.pure]

theorem demodLoop_congr (f g : ℕ → Except String (List Char)) (n : ℕ)
    (h : ∀ i, i < n → f i = g i) : demodLoop f n = demodLoop g n := by
  induction n with
  | zero => rfl
  | succ n ih =>
    unfold demodLoop
    rw [ih (fun i hi => h i (Nat.lt_succ_of_lt hi)), h n (Nat.lt_succ_self n)]

theorem demodLoop_ok (f : ℕ → Except String (List Char)) (e : ℕ → List Char) (n : ℕ)
    (h : ∀ i, i < n → f i = .ok (e i)) :
    demodLoop f n = .ok ((List.range n).flatMap e) := by
  induction n with
  | zero => rfl
  | succ n ih =>
    unfold demodLoop
    rw [ih (fun i hi => h i (Nat.lt_succ_of_lt hi)), h n (Nat.lt_succ_self n),
      List.range_succ, List.flatMap_append]
    simp

theorem fsk_demodulate_windows (s : ℚ → ℚ) (fh fl bd sr θ : ℚ) (buf : List ℚ) (L : ℕ)
    (hL : 0 < L) (hsr : sr * bd = (L : ℚ)) :
    fsk_demodulate s buf fh fl bd sr θ =
      demodLoop (fun i => demodWindow s fh fl θ ((buf.drop (L * i)).take L))
        (buf.length / L) := by
  have hne : sr * bd ≠ 0 := by
    rw [hsr]
    exact_mod_cast hL.ne'
  unfold fsk_demodulate
  rw [if_neg hne]
  have hnum : (pyTrunc ((buf.length : ℚ) / (sr * bd))).toNat = buf.length / L := by
    rw [hsr, pyTrunc_natCast_div _ _ hL]
    exact Int.toNat_natCast _
  rw [hnum]
  apply demodLoop_congr
  intro i _
  have hstart : pyTrunc ((i : ℚ) * sr * bd) = ((L * i : ℕ) : ℤ) := by
    have h1 : (i : ℚ) * sr * bd = ((L * i : ℕ) : ℚ) := by
      rw [mul_assoc, hsr]
      push_cast
      ring
    rw [h1, pyTrunc_natCast]
  have hstop : pyTrunc (((i : ℚ) + 1) * sr * bd) = ((L * (i + 1) : ℕ) : ℤ) := by
    have h1 : ((i : ℚ) + 1) * sr * bd = ((L * (i + 1) : ℕ) : ℚ) := by
      rw [mul_assoc, hsr]
      push_cast
      ring
    rw [h1, pyTrunc_natCast]
  rw [hstart, hstop, Int.toNat_natCast, Int.toNat_natCast]
  congr 1
  have : L * (i + 1) - L * i = L := by
    have : L * (i + 1) = L * i + L := by ring
    omega
  rw [this]

theorem flatMap_drop_take {α β : Type} (f : α → List β) (L : ℕ)
    (hf : ∀ a, (f a).length = L) (l : List α) (d₀ : α) :
    ∀ i, i < l.length → ((l.flatMap f).drop (L * i)).take L = f (l.getD i d₀) := by
  induction l with
  | nil => intro i hi; simp at hi
  | cons a t ih =>
    intro i hi
    cases i with
    | zero =>
      simp only [List.flatMap_cons, Nat.mul_zero, List.drop_zero, List.getD_cons_zero]
      rw [List.take_append_of_le_length (le_of_eq (hf a).symm), ← hf a, List.take_length]
    | succ i =>
      simp only [List.flatMap_cons, List.getD_cons_succ]
      have hL : L * (i + 1) = (f a).length + L * i := by rw [hf a]; ring
      rw [hL, List.drop_append]
      exact ih i (Nat.lt_of_succ_lt_succ hi)

theorem length_flatMap_const {α β : Type} (f : α → List β) (L : ℕ)
    (hf : ∀ a, (f a).length = L) (l : List α) : (l.flatMap f).length = l.length * L := by
  induction l with
  | nil => simp
  | cons a t ih =>
    simp only [List.flatMap_cons, List.length_append, ih, hf a, List.length_cons]
    ring

theorem flatMap_range_getD {α : Type} (l : List α) (d₀ : α) :
    (List.range l.length).flatMap (fun i => [l.getD i d₀]) = l := by
  induction l with
  | nil => rfl
  | cons a t ih =>
    have h1 : (a :: t).length = t.length + 1 := rfl
    rw [h1, List.range_succ_eq_map]
    simp only [List.flatMap_cons, List.getD_cons_zero, List.flatMap_map, Function.comp]
    simp only [List.getD_cons_succ]
    rw [ih]
    rfl

theorem fskSignalChunks_ok (s : ℚ → ℚ) (fh fl d : ℚ) (data : List Char)
    (h : 0 ≤ pyTrunc (sample_rate * d)) :
    fskSignalChunks s fh fl d data =
      .ok (data.flatMap (fun c =>
        sineSamples s (if c = '1' then fh else fl) d sample_rate)) := by
  induction data with
  | nil => rfl
  | cons c rest ih =>
    unfold fskSignalChunks
    rw [generate_sine_wave_ok _ _ _ _ h, ih]
    rfl

theorem generate_fsk_signal_ok (s : ℚ → ℚ) (data : List Char) (fh fl sr d : ℚ)
    (hsr : 0 ≤ pyTrunc (sr * d)) (hd : 0 ≤ pyTrunc (sample_rate * d)) :
    generate_fsk_signal s data fh fl sr d =
      .ok (data.flatMap (fun c =>
        sineSamples s (if c = '1' then fh else fl) d sample_rate)) := by
  unfold generate_fsk_signal
  rw [if_neg (not_lt.mpr hsr), fskSignalChunks_ok s fh fl d data hd]

/-- C1: for a configuration on which detection is unambiguous — the symbol
length divides the buffer exactly (`sr * d = L` with `L` the modulator's
chunk length) and each pure tone burst, fed to the demodulator's window
classifier, comes back as its own bit — demodulating the modulated waveform
of any nonempty bit string returns exactly that bit string. -/
theorem c1_roundtrip (s : ℚ → ℚ) (fh fl sr d θ : ℚ) (L : ℕ) (data : List Char)
    (hL : 0 < L)
    (hsr : sr * d = (L : ℚ))
    (hchunk : (pyTrunc (sample_rate * d)).toNat = L)
    (hhigh : demodWindow s fh fl θ (sineSamples s fh d sample_rate) = .ok ['1'])
    (hlow : demodWindow s fh fl θ (sineSamples s fl d sample_rate) = .ok ['0'])
    (hdata : ∀ c ∈ data, c = '0' ∨ c = '1')
    (_hne : data ≠ []) :
    ∃ sig, generate_fsk_signal s data fh fl sr d = .ok sig ∧
      fsk_demodulate s sig fh fl d sr θ = .ok data := by
  have h0 : 0 ≤ pyTrunc (sample_rate * d) := by
    by_contra h
    push_neg at h
    rw [Int.toNat_of_nonpos (le_of_lt h)] at hchunk
    omega
  have hsr0 : 0 ≤ pyTrunc (sr * d) := by
    rw [hsr, pyTrunc_natCast]
    exact Int.natCast_nonneg L
  have hlen : ∀ c, (sineSamples s (if c = '1' then fh else fl) d sample_rate).length = L := by
    intro c
    rw [sineSamples_length]
    exact hchunk
  refine ⟨data.flatMap (fun c => sineSamples s (if c = '1' then fh else fl) d sample_rate),
    generate_fsk_signal_ok s data fh fl sr d hsr0 h0, ?_⟩
  rw [fsk_demodulate_windows s fh fl d sr θ _ L hL hsr]
  have hslen :
      (data.flatMap (fun c => sineSamples s (if c = '1' then fh else fl) d sample_rate)).length
        = data.length * L := length_flatMap_const _ L hlen data
  rw [hslen, Nat.mul_div_cancel data.length hL]
  have hstep : ∀ i, i < data.length →
      demodWindow s fh fl θ
        (((data.flatMap (fun c => sineSamples s (if c = '1' then fh else fl) d sample_rate)).drop
          (L * i)).take L) = .ok [data.getD i '0'] := by
    intro i hi
    rw [flatMap_drop_take _ L hlen data '0' i hi]
    have hmem : data.getD i '0' ∈ data := by
      rw [List.getD_eq_getElem data '0' hi]
      exact List.getElem_mem hi
    rcases hdata _ hmem with h | h
    · rw [h]
      have : ('0' : Char) = '1' ↔ False := by simp
      rw [if_neg (by simp)]
      exact hlow
    · rw [h, if_pos rfl]
      exact hhigh
  rw [demodLoop_ok _ (fun i => [data.getD i '0']) data.length hstep]
  rw [flatMap_range_getD data '0']

/-! Witness instantiation for the round-trip: the abstract sampled sine is
instantiated with the indicator of a fractional part of one half, which takes
the value 1 exactly on the odd multiples of one half cycle. -/

theorem fracDiv (k q : ℕ) (hq : 0 < q) :
    (k : ℚ) / q - (Int.floor ((k : ℚ) / q) : ℚ) = ((k % q : ℕ) : ℚ) / q := by
  have hqQ : (0 : ℚ) < (q : ℚ) := by exact_mod_cast hq
  have hk : (k : ℚ) = (q : ℚ) * ((k / q : ℕ) : ℚ) + ((k % q : ℕ) : ℚ) := by
    exact_mod_cast (Nat.div_add_mod k q).symm
  have hsplit : (k : ℚ) / q = ((k % q : ℕ) : ℚ) / q + ((k / q : ℕ) : ℚ) := by
    rw [hk]
    field_simp
    ring
  have hfrac0 : Int.floor (((k % q : ℕ) : ℚ) / q) = 0 := by
    rw [Int.floor_eq_zero_iff]
    constructor
    · positivity
    · rw [div_lt_one hqQ]
      exact_mod_cast Nat.mod_lt k hq
  have hfl : Int.floor ((k : ℚ) / q) = ((k / q : ℕ) : ℤ) := by
    rw [hsplit, Int.floor_add_nat, hfrac0, zero_add]
  rw [hfl, hsplit, Int.cast_natCast]
  ring

theorem sHalf_div (k q : ℕ) (hq : 0 < q) :
    (fun x => if x - (Int.floor x : ℚ) = 1 / 2 then (1 : ℚ) else 0) ((k : ℚ) / q)
      = if 2 * (k % q) = q then 1 else 0 := by
  have hqQ : (0 : ℚ) < (q : ℚ) := by exact_mod_cast hq
  have hiff : ((k % q : ℕ) : ℚ) / q = 1 / 2 ↔ 2 * (k % q) = q := by
    rw [div_eq_div_iff hqQ.ne' (by norm_num : (2 : ℚ) ≠ 0)]
    constructor
    · intro h
      have h2 : ((k % q : ℕ) : ℚ) * 2 = (q : ℚ) := by linarith
      exact_mod_cast (by linarith : (2 : ℚ) * ((k % q : ℕ) : ℚ) = (q : ℚ))
    · intro h
      have h2 : (2 : ℚ) * ((k % q : ℕ) : ℚ) = (q : ℚ) := by exact_mod_cast h
      linarith
  simp only [fracDiv k q hq]
  by_cases h : 2 * (k % q) = q
  · rw [if_pos (hiff.mpr h), if_pos h]
  · rw [if_neg (fun hc => h (hiff.mp hc)), if_neg h]

theorem c1w_trunc : (pyTrunc (sample_rate * bit_duration)).toNat = 441 := by
  rw [ref_trunc]
  rfl

theorem c1w_hi_pattern :
    sineSamples (fun x => if x - (Int.floor x : ℚ) = 1 / 2 then (1 : ℚ) else 0)
        22050 bit_duration sample_rate
      = (List.range 441).map (fun k => if k % 2 == 1 then (1 : ℚ) else 0) := by
  unfold sineSamples
  rw [c1w_trunc]
  apply List.map_congr_left
  intro k _
  have hphase : (22050 : ℚ) * (bit_duration * (k : ℚ) / ((441 : ℕ) : ℚ))
      = (k : ℚ) / ((2 : ℕ) : ℚ) := by
    rw [bit_duration]
    push_cast
    ring
  rw [hphase, sHalf_div k 2 (by norm_num)]
  rcases Nat.mod_two_eq_zero_or_one k with h | h <;> simp [h]


theorem c1w_lo_pattern :
    sineSamples (fun x => if x - (Int.floor x : ℚ) = 1 / 2 then (1 : ℚ) else 0)
        11025 bit_duration sample_rate
      = (List.range 441).map (fun k => if k % 4 == 2 then (1 : ℚ) else 0) := by
  unfold sineSamples
  rw [c1w_trunc]
  apply List.map_congr_left
  intro k _
  have hphase : (11025 : ℚ) * (bit_duration * (k : ℚ) / ((441 : ℕ) : ℚ))
      = (k : ℚ) / ((4 : ℕ) : ℚ) := by
    rw [bit_duration]
    push_cast
    ring
  rw [hphase, sHalf_div k 4 (by norm_num)]
  have h4 : k % 4 < 4 := Nat.mod_lt k (by norm_num)
  interval_cases h : k % 4 <;> simp

theorem energy_indicator (a b : ℕ → Bool) (n : ℕ) :
    energy ((List.range n).map (fun k => if a k then (1 : ℚ) else 0))
        ((List.range n).map (fun k => if b k then (1 : ℚ) else 0))
      = (((List.range n).filter (fun k => a k && b k)).length : ℚ) := by
  induction n with
  | zero => simp [energy]
  | succ n ih =>
    rw [List.range_succ, List.map_append, List.map_append]
    unfold energy at ih ⊢
    rw [List.zipWith_append _ _ _ _ _ (by simp), List.sum_append, ih, List.filter_append,
      List.length_append]
    cases ha : a n <;> cases hb : b n <;>
      first
      | (simp [ha, hb]; push_cast; norm_num)
      | simp [ha, hb]

theorem c1w_count_hh :
    ((List.range 441).filter (fun k => (k % 2 == 1) && (k % 2 == 1))).length = 220 := by
  decide

theorem c1w_count_hl :
    ((List.range 441).filter (fun k => (k % 2 == 1) && (k % 4 == 2))).length = 0 := by
  decide

theorem c1w_count_lh :
    ((List.range 441).filter (fun k => (k % 4 == 2) && (k % 2 == 1))).length = 0 := by
  decide

theorem c1w_count_ll :
    ((List.range 441).filter (fun k => (k % 4 == 2) && (k % 4 == 2))).length = 110 := by
  decide

theorem c1w_high :
    demodWindow (fun x => if x - (Int.floor x : ℚ) = 1 / 2 then (1 : ℚ) else 0)
        22050 11025 (11 / 20)
        (sineSamples (fun x => if x - (Int.floor x : ℚ) = 1 / 2 then (1 : ℚ) else 0)
          22050 bit_duration sample_rate)
      = .ok ['1'] := by
  rw [demodWindow_eq _ _ _ _ _ (by rw [sineSamples_length, c1w_trunc])]
  rw [c1w_hi_pattern, c1w_lo_pattern, energy_indicator, energy_indicator,
    c1w_count_hh, c1w_count_hl]
  unfold windowEmit
  rw [if_pos (by constructor <;> push_cast <;> norm_num)]

theorem c1w_low :
    demodWindow (fun x => if x - (Int.floor x : ℚ) = 1 / 2 then (1 : ℚ) else 0)
        22050 11025 (11 / 20)
        (sineSamples (fun x => if x - (Int.floor x : ℚ) = 1 / 2 then (1 : ℚ) else 0)
          11025 bit_duration sample_rate)
      = .ok ['0'] := by
  rw [demodWindow_eq _ _ _ _ _ (by rw [sineSamples_length, c1w_trunc])]
  rw [c1w_hi_pattern, c1w_lo_pattern, energy_indicator, energy_indicator,
    c1w_count_lh, c1w_count_ll]
  unfold windowEmit
  rw [if_neg (by push_cast; intro h; rcases h with ⟨h1, _⟩; norm_num at h1),
    if_pos (by constructor <;> push_cast <;> norm_num)]

/-- C1 witness: the default configuration (44100 Hz, 10 ms symbols, threshold
0.55) with tones at 22050 Hz and 11025 Hz and the half-cycle indicator as
sampled sine: the bit string "10" modulates and demodulates back to "10". -/
theorem c1_roundtrip_witness :
    ∃ sig,
      generate_fsk_signal (fun x => if x - (Int.floor x : ℚ) = 1 / 2 then (1 : ℚ) else 0)
          ['1', '0'] 22050 11025 sample_rate bit_duration = .ok sig ∧
        fsk_demodulate (fun x => if x - (Int.floor x : ℚ) = 1 / 2 then (1 : ℚ) else 0)
          sig 22050 11025 bit_duration sample_rate (11 / 20) = .ok ['1', '0'] :=
  c1_roundtrip _ 22050 11025 sample_rate bit_duration (11 / 20) 441 ['1', '0']
    (by norm_num)
    (by rw [show sample_rate * bit_duration = ((441 : ℕ) : ℚ) by
          norm_num [sample_rate, bit_duration]])
    c1w_trunc
    c1w_high
    c1w_low
    (by decide)
    (by decide)

theorem window_take_length (buf : List ℚ) (i : ℕ) (hi : i < buf.length / 441) :
    ((buf.drop (441 * i)).take 441).length = 441 := by
  have h1 : 441 * (buf.length / 441) ≤ buf.length := Nat.mul_div_le buf.length 441
  have h2 : 441 * (i + 1) ≤ 441 * (buf.length / 441) := Nat.mul_le_mul_left 441 hi
  rw [List.length_take, List.length_drop]
  omega

theorem windowEmit_cases (θ eh el : ℚ) :
    windowEmit θ eh el = ['1'] ∨ windowEmit θ eh el = ['0'] ∨ windowEmit θ eh el = [] := by
  unfold windowEmit
  split_ifs with h1 h2
  · exact Or.inl rfl
  · exact Or.inr (Or.inl rfl)
  · exact Or.inr (Or.inr rfl)

/-- C4: with the symbol length of 441 samples fixed by the demodulator's
reference tones, a buffer of `n` samples is decided in exactly `n / 441`
non-overlapping windows tiling from offset zero, window `i` being the slice
from `441 * i` of length 441; the trailing remainder is discarded (the
output is that of the truncated buffer), and when every window classifies
unambiguously the output has exactly `n / 441` bits. -/
theorem c4_window_discretization (s : ℚ → ℚ) (fh fl bd sr θ : ℚ) (buf : List ℚ)
    (hsr : sr * bd = ((441 : ℕ) : ℚ)) :
    fsk_demodulate s buf fh fl bd sr θ =
      .ok ((List.range (buf.length / 441)).flatMap (fun i =>
        windowEmit θ
          (energy ((buf.drop (441 * i)).take 441) (sineSamples s fh bit_duration sample_rate))
          (energy ((buf.drop (441 * i)).take 441) (sineSamples s fl bit_duration sample_rate))))
    ∧ fsk_demodulate s buf fh fl bd sr θ
        = fsk_demodulate s (buf.take (441 * (buf.length / 441))) fh fl bd sr θ
    ∧ ((∀ i, i < buf.length / 441 →
          windowEmit θ
            (energy ((buf.drop (441 * i)).take 441) (sineSamples s fh bit_duration sample_rate))
            (energy ((buf.drop (441 * i)).take 441) (sineSamples s fl bit_duration sample_rate))
            ≠ []) →
        ∃ bits, fsk_demodulate s buf fh fl bd sr θ = .ok bits ∧
          bits.length = buf.length / 441) := by
  have h441 : (0 : ℕ) < 441 := by norm_num
  have hchar : fsk_demodulate s buf fh fl bd sr θ =
      .ok ((List.range (buf.length / 441)).flatMap (fun i =>
        windowEmit θ
          (energy ((buf.drop (441 * i)).take 441) (sineSamples s fh bit_duration sample_rate))
          (energy ((buf.drop (441 * i)).take 441) (sineSamples s fl bit_duration sample_rate)))) := by
    rw [fsk_demodulate_windows s fh fl bd sr θ buf 441 h441 hsr]
    exact demodLoop_ok _ _ _ (fun i hi =>
      demodWindow_eq s fh fl θ _ (window_take_length buf i hi))
  refine ⟨hchar, ?_, ?_⟩
  · have hlen : (buf.take (441 * (buf.length / 441))).length = 441 * (buf.length / 441) := by
      rw [List.length_take]
      exact min_eq_left (Nat.mul_div_le buf.length 441)
    have hq : (buf.take (441 * (buf.length / 441))).length / 441 = buf.length / 441 := by
      rw [hlen, Nat.mul_div_cancel_left _ h441]
    have hwin : ∀ i, i < buf.length / 441 →
        ((buf.take (441 * (buf.length / 441))).drop (441 * i)).take 441
          = (buf.drop (441 * i)).take 441 := by
      intro i hi
      rw [List.drop_take, List.take_take]
      have : 441 ≤ 441 * (buf.length / 441) - 441 * i := by
        have h2 : 441 * (i + 1) ≤ 441 * (buf.length / 441) := Nat.mul_le_mul_left 441 hi
        omega
      rw [min_eq_left this]
    have hchar2 : fsk_demodulate s (buf.take (441 * (buf.length / 441))) fh fl bd sr θ =
        .ok ((List.range (buf.length / 441)).flatMap (fun i =>
          windowEmit θ
            (energy ((buf.drop (441 * i)).take 441) (sineSamples s fh bit_duration sample_rate))
            (energy ((buf.drop (441 * i)).take 441)
              (sineSamples s fl bit_duration sample_rate)))) := by
      rw [fsk_demodulate_windows s fh fl bd sr θ _ 441 h441 hsr, hq]
      apply demodLoop_ok
      intro i hi
      rw [hwin i hi]
      exact demodWindow_eq s fh fl θ _ (window_take_length buf i hi)
    rw [hchar, hchar2]
  · intro hunamb
    refine ⟨_, hchar, ?_⟩
    rw [List.length_flatMap]
    have hone : ∀ i ∈ List.range (buf.length / 441),
        (windowEmit θ
          (energy ((buf.drop (441 * i)).take 441) (sineSamples s fh bit_duration sample_rate))
          (energy ((buf.drop (441 * i)).take 441)
            (sineSamples s fl bit_duration sample_rate))).length = 1 := by
      intro i hi
      rw [List.mem_range] at hi
      rcases windowEmit_cases θ
          (energy ((buf.drop (441 * i)).take 441) (sineSamples s fh bit_duration sample_rate))
          (energy ((buf.drop (441 * i)).take 441) (sineSamples s fl bit_duration sample_rate))
        with h | h | h
      · rw [h]; rfl
      · rw [h]; rfl
      · exact absurd h (hunamb i hi)
    calc (List.map (List.length ∘ fun i =>
            windowEmit θ
              (energy ((buf.drop (441 * i)).take 441)
                (sineSamples s fh bit_duration sample_rate))
              (energy ((buf.drop (441 * i)).take 441)
                (sineSamples s fl bit_duration sample_rate)))
          (List.range (buf.length / 441))).sum
        = (List.map (fun _ => 1) (List.range (buf.length / 441))).sum := by
          apply congrArg
          apply List.map_congr_left
          intro i hi
          exact hone i hi
      _ = buf.length / 441 := by
          rw [List.map_const', List.sum_replicate, List.length_range, smul_eq_mul, mul_one]

/-- C4 witness: a 500-sample all-zero buffer under the default configuration
is decided in exactly one window (the trailing 59 samples are discarded). -/
theorem c4_witness :
    fsk_demodulate (fun _ => (0 : ℚ)) (List.replicate 500 0) 2000 1000
        bit_duration sample_rate (11 / 20) =
      .ok ((List.range ((List.replicate 500 (0 : ℚ)).length / 441)).flatMap (fun i =>
        windowEmit (11 / 20)
          (energy (((List.replicate 500 (0 : ℚ)).drop (441 * i)).take 441)
            (sineSamples (fun _ => (0 : ℚ)) 2000 bit_duration sample_rate))
          (energy (((List.replicate 500 (0 : ℚ)).drop (441 * i)).take 441)
            (sineSamples (fun _ => (0 : ℚ)) 1000 bit_duration sample_rate)))) :=
  (c4_window_discretization (fun _ => (0 : ℚ)) 2000 1000 bit_duration sample_rate (11 / 20)
    (List.replicate 500 0)
    (by norm_num [sample_rate, bit_duration])).1

/-- C2: a single captured window is classified against the threshold
`T = threshold_factor * (E_high + E_low)`: the demodulator emits '1' exactly
when `E_high > T` and `E_low < T`, emits '0' exactly when `E_low > T` and
`E_high < T`, and emits nothing (no error is signalled) in every other case;
in particular equal energies on the two reference tones emit nothing. -/
theorem c2_classification (s : ℚ → ℚ) (fh fl bd sr θ : ℚ) (w : List ℚ)
    (hw : w.length = 441) (hsr : sr * bd = ((441 : ℕ) : ℚ)) :
    fsk_demodulate s w fh fl bd sr θ =
      .ok (windowEmit θ (energy w (sineSamples s fh bit_duration sample_rate))
        (energy w (sineSamples s fl bit_duration sample_rate)))
    ∧ (∀ eh el : ℚ,
        (windowEmit θ eh el = ['1'] ↔ eh > (eh + el) * θ ∧ el < (eh + el) * θ)
        ∧ (windowEmit θ eh el = ['0'] ↔ el > (eh + el) * θ ∧ eh < (eh + el) * θ)
        ∧ (¬(eh > (eh + el) * θ ∧ el < (eh + el) * θ) →
            ¬(el > (eh + el) * θ ∧ eh < (eh + el) * θ) → windowEmit θ eh el = [])
        ∧ (eh = el → windowEmit θ eh el = [])) := by
  constructor
  · have h441 : (0 : ℕ) < 441 := by norm_num
    rw [fsk_demodulate_windows s fh fl bd sr θ w 441 h441 hsr]
    have hq : w.length / 441 = 1 := by rw [hw]
    rw [hq]
    have hwin : ((w.drop (441 * 0)).take 441) = w := by
      rw [Nat.mul_zero, List.drop_zero, ← hw, List.take_length]
    have hstep : ∀ i, i < 1 →
        demodWindow s fh fl θ ((w.drop (441 * i)).take 441) =
          .ok (windowEmit θ (energy w (sineSamples s fh bit_duration sample_rate))
            (energy w (sineSamples s fl bit_duration sample_rate))) := by
      intro i hi
      have hi0 : i = 0 := by omega
      rw [hi0, hwin]
      exact demodWindow_eq s fh fl θ w hw
    rw [demodLoop_ok _ _ 1 hstep]
    rw [show List.range 1 = [0] from rfl]
    simp
  · intro eh el
    refine ⟨?_, ?_, ?_, ?_⟩
    · unfold windowEmit
      split_ifs with h1 h2
      · simp [h1]
      · simpa using h1
      · simpa using h1
    · unfold windowEmit
      split_ifs with h1 h2
      · constructor
        · intro h
          simp at h
        · intro h
          exact absurd h1.2 (not_lt.mpr (le_of_lt h.1))
      · simp [h2]
      · simpa using h2
    · intro h1 h2
      unfold windowEmit
      rw [if_neg h1, if_neg h2]
    · intro heq
      subst heq
      unfold windowEmit
      have h1 : ¬(eh > (eh + eh) * θ ∧ eh < (eh + eh) * θ) := by
        rintro ⟨ha, hb⟩
        linarith
      rw [if_neg h1, if_neg h1]

/-- C2 witness: an all-zero 441-sample window under the default
configuration has equal (zero) energies and emits nothing. -/
theorem c2_witness :
    fsk_demodulate (fun _ => (0 : ℚ)) (List.replicate 441 0) 2000 1000
        bit_duration sample_rate (11 / 20) =
      .ok (windowEmit (11 / 20)
        (energy (List.replicate 441 0)
          (sineSamples (fun _ => (0 : ℚ)) 2000 bit_duration sample_rate))
        (energy (List.replicate 441 0)
          (sineSamples (fun _ => (0 : ℚ)) 1000 bit_duration sample_rate))) :=
  (c2_classification (fun _ => (0 : ℚ)) 2000 1000 bit_duration sample_rate (11 / 20)
    (List.replicate 441 0)
    (by rw [List.length_replicate])
    (by norm_num [sample_rate, bit_duration])).1

/-- C5: for a bit sequence the modulator appends, per bit in order, the
high-frequency burst for '1' and the low-frequency burst otherwise, with no
gap between bursts, and the output length is exactly
`len(bits) * samples_per_symbol` (the inner bursts are synthesized at the
module sample rate 44100, which the configuration hypothesis fixes). -/
theorem c5_modulator (s : ℚ → ℚ) (data : List Char) (fh fl sr d : ℚ)
    (_hbits : ∀ c ∈ data, c = '0' ∨ c = '1')
    (hd : 0 ≤ pyTrunc (sample_rate * d))
    (hsr : sr = sample_rate) :
    generate_fsk_signal s data fh fl sr d =
      .ok (data.flatMap (fun c =>
        if c = '1' then sineSamples s fh d sample_rate else sineSamples s fl d sample_rate))
    ∧ ∀ sig, generate_fsk_signal s data fh fl sr d = .ok sig →
        sig.length = data.length * (pyTrunc (sr * d)).toNat := by
  have hfun : (fun c => sineSamples s (if c = '1' then fh else fl) d sample_rate)
      = (fun c =>
          if c = '1' then sineSamples s fh d sample_rate else sineSamples s fl d sample_rate) := by
    funext c
    by_cases h : c = '1' <;> simp [h]
  have hok := generate_fsk_signal_ok s data fh fl sr d (by rw [hsr]; exact hd) hd
  rw [hfun] at hok
  refine ⟨hok, ?_⟩
  intro sig hsig
  rw [hok] at hsig
  injection hsig with h
  rw [← h, hsr]
  apply length_flatMap_const
  intro c
  by_cases hc : c = '1' <;> simp [hc, sineSamples_length]

/-- C5 witness: two bits under the default configuration. -/
theorem c5_witness :
    generate_fsk_signal (fun _ => (0 : ℚ)) ['1', '0'] 2000 1000 sample_rate bit_duration =
      .ok (['1', '0'].flatMap (fun c =>
        if c = '1' then sineSamples (fun _ => (0 : ℚ)) 2000 bit_duration sample_rate
        else sineSamples (fun _ => (0 : ℚ)) 1000 bit_duration sample_rate)) :=
  (c5_modulator (fun _ => (0 : ℚ)) ['1', '0'] 2000 1000 sample_rate bit_duration
    (by decide)
    (by rw [ref_trunc]; norm_num)
    rfl).1

/-- C10: the server encodes a message as `bin(int.from_bytes(...))`, whose
first two characters are the literal '0' and 'b'; the modulator sends every
non-'1' character as a low tone, so the transmitted waveform begins with two
low-frequency bursts that encode the `0b` prefix, not message bits. -/
theorem c10_bin_prefix (s : ℚ → ℚ) (message : List ℕ) (fh fl sr d : ℚ)
    (_hmsg : message ≠ [])
    (hd : 0 ≤ pyTrunc (sample_rate * d))
    (hsr0 : 0 ≤ pyTrunc (sr * d)) :
    (pyBin (bytesToNat message)).take 2 = ['0', 'b']
    ∧ ('0' : Char) ≠ '1' ∧ ('b' : Char) ≠ '1'
    ∧ ∃ rest,
        generate_fsk_signal s (pyBin (bytesToNat message)) fh fl sr d =
          .ok (sineSamples s fl d sample_rate ++ (sineSamples s fl d sample_rate ++ rest)) := by
  refine ⟨rfl, by decide, by decide, ?_⟩
  refine ⟨(pyBinDigits (bytesToNat message)).flatMap (fun c =>
    sineSamples s (if c = '1' then fh else fl) d sample_rate), ?_⟩
  rw [generate_fsk_signal_ok s _ fh fl sr d hsr0 hd]
  unfold pyBin
  rw [List.flatMap_cons, List.flatMap_cons]
  rw [if_neg (by decide : ¬('0' : Char) = '1'), if_neg (by decide : ¬('b' : Char) = '1')]

/-- C10 witness: the one-byte message 0x48 ('H') under the default
configuration. -/
theorem c10_witness :
    (pyBin (bytesToNat [72])).take 2 = ['0', 'b']
    ∧ ('0' : Char) ≠ '1' ∧ ('b' : Char) ≠ '1'
    ∧ ∃ rest,
        generate_fsk_signal (fun _ => (0 : ℚ)) (pyBin (bytesToNat [72]))
            2000 1000 sample_rate bit_duration =
          .ok (sineSamples (fun _ => (0 : ℚ)) 1000 bit_duration sample_rate ++
            (sineSamples (fun _ => (0 : ℚ)) 1000 bit_duration sample_rate ++ rest)) :=
  c10_bin_prefix (fun _ => (0 : ℚ)) [72] 2000 1000 sample_rate bit_duration
    (by decide)
    (by rw [ref_trunc]; norm_num)
    (by rw [ref_trunc]; norm_num)

/-- C6 counterexample: with positive duration 5/8 s and sample rate 4 Hz the
code places its second sample at time `1 * duration / N = 5/16` (np.linspace
divides the duration by the sample count), not at the claimed
`1 / sample_rate = 1/4`; the resulting phases 5/64 and 1/16 differ, and the
real sine itself separates them, so the produced buffer is not the one the
claim describes. -/
theorem c6_counterexample :
    (0 : ℚ) < 5 / 8
    ∧ sineSamples (fun x => x) (1 / 4) (5 / 8) 4 = [0, 5 / 64]
    ∧ specSineWave (fun x => x) (1 / 4) (5 / 8) 4 = [0, 1 / 16]
    ∧ generate_sine_wave (fun x => x) (1 / 4) (5 / 8) 4
        ≠ .ok (specSineWave (fun x => x) (1 / 4) (5 / 8) 4)
    ∧ Real.sin (2 * Real.pi * (5 / 64)) ≠ Real.sin (2 * Real.pi * (1 / 16)) := by
  have h52 : pyTrunc ((4 : ℚ) * (5 / 8)) = 2 := by
    have h1 : (4 : ℚ) * (5 / 8) = 5 / 2 := by norm_num
    unfold pyTrunc
    rw [h1, if_neg (by norm_num)]
    rw [Int.floor_eq_iff]
    constructor <;> norm_num
  have hcode : sineSamples (fun x => x) (1 / 4) (5 / 8) 4 = [0, 5 / 64] := by
    unfold sineSamples
    rw [h52, show ((2 : ℤ).toNat) = 2 from rfl, show List.range 2 = [0, 1] from rfl]
    simp
    norm_num
  have hspec : specSineWave (fun x => x) (1 / 4) (5 / 8) 4 = [0, 1 / 16] := by
    unfold specSineWave
    rw [h52, show ((2 : ℤ).toNat) = 2 from rfl, show List.range 2 = [0, 1] from rfl]
    simp
    norm_num
  refine ⟨by norm_num, hcode, hspec, ?_, ?_⟩
  · rw [generate_sine_wave_ok (fun x => x) (1 / 4) (5 / 8) 4 (by rw [h52]; norm_num),
      hcode, hspec]
    intro h
    injection h with h'
    rw [List.cons.injEq, List.cons.injEq] at h'
    have : (5 / 64 : ℚ) = 1 / 16 := h'.2.1
    norm_num at this
  · have hpi := Real.pi_pos
    have hmem1 : 2 * Real.pi * (1 / 16) ∈ Set.Icc (-(Real.pi / 2)) (Real.pi / 2) := by
      constructor <;> nlinarith
    have hmem2 : 2 * Real.pi * (5 / 64) ∈ Set.Icc (-(Real.pi / 2)) (Real.pi / 2) := by
      constructor <;> nlinarith
    have hlt : 2 * Real.pi * (1 / 16) < 2 * Real.pi * (5 / 64) := by nlinarith
    exact ne_of_gt (Real.strictMonoOn_sin hmem1 hmem2 hlt)

/-- C6 amended: the synthesizer returns `N = int(sample_rate * duration)`
samples whose i-th value is `sin(2*pi*frequency*t_i)` with
`t_i = i * duration / N` (np.linspace with the endpoint excluded); these
times equal the claimed `i / sample_rate` exactly when
`sample_rate * duration` is a whole number.  The function remains a pure
function of its arguments. -/
theorem c6_amended (s : ℚ → ℚ) (f d sr : ℚ) (hd : 0 ≤ pyTrunc (sr * d)) :
    generate_sine_wave s f d sr = .ok (sineSamples s f d sr)
    ∧ (sineSamples s f d sr).length = (pyTrunc (sr * d)).toNat
    ∧ (∀ N : ℕ, sr * d = (N : ℚ) → sr ≠ 0 →
        sineSamples s f d sr = specSineWave s f d sr) := by
  refine ⟨generate_sine_wave_ok s f d sr hd, sineSamples_length s f d sr, ?_⟩
  intro N hN hsr0
  by_cases hN0 : N = 0
  · subst hN0
    unfold sineSamples specSineWave
    rw [hN, pyTrunc_natCast]
    rfl
  · have hNQ : ((N : ℕ) : ℚ) ≠ 0 := by exact_mod_cast hN0
    unfold sineSamples specSineWave
    rw [hN, pyTrunc_natCast, Int.toNat_natCast]
    apply List.map_congr_left
    intro i _
    have key : d * (i : ℚ) / (N : ℚ) = (i : ℚ) / sr := by
      rw [div_eq_div_iff hNQ hsr0]
      calc d * (i : ℚ) * sr = (i : ℚ) * (sr * d) := by ring
        _ = (i : ℚ) * (N : ℚ) := by rw [hN]
    rw [key]

/-- C6 amended witness: the default tone parameters. -/
theorem c6_amended_witness :
    0 ≤ pyTrunc (sample_rate * bit_duration)
    ∧ (generate_sine_wave (fun _ => (0 : ℚ)) 2000 bit_duration sample_rate =
        .ok (sineSamples (fun _ => (0 : ℚ)) 2000 bit_duration sample_rate)
      ∧ (sineSamples (fun _ => (0 : ℚ)) 2000 bit_duration sample_rate).length =
          (pyTrunc (sample_rate * bit_duration)).toNat
      ∧ (∀ N : ℕ, sample_rate * bit_duration = (N : ℚ) → sample_rate ≠ 0 →
          sineSamples (fun _ => (0 : ℚ)) 2000 bit_duration sample_rate =
            specSineWave (fun _ => (0 : ℚ)) 2000 bit_duration sample_rate)) :=
  ⟨by rw [ref_trunc]; norm_num,
    c6_amended (fun _ => (0 : ℚ)) 2000 bit_duration sample_rate (by rw [ref_trunc]; norm_num)⟩

/-- C9 counterexample: the degenerate frequency -1 with the default duration
and sample rate is neither rejected nor mapped to an empty buffer — the call
succeeds with the usual 441 samples, while degenerate durations are treated
differently (negative sample count errors, zero sample count gives an empty
buffer), so no single consistent degenerate-input policy exists. -/
theorem c9_counterexample :
    (-1 : ℚ) ≤ 0
    ∧ generate_sine_wave (fun _ => (0 : ℚ)) (-1) bit_duration sample_rate
        = .ok (sineSamples (fun _ => (0 : ℚ)) (-1) bit_duration sample_rate)
    ∧ (sineSamples (fun _ => (0 : ℚ)) (-1) bit_duration sample_rate).length = 441
    ∧ generate_sine_wave (fun _ => (0 : ℚ)) 2000 (-(1 / 100)) sample_rate
        = .error "ValueError: Number of samples must be non-negative"
    ∧ generate_sine_wave (fun _ => (0 : ℚ)) 2000 0 sample_rate = .ok [] := by
  have hneg : pyTrunc (sample_rate * (-(1 / 100))) = -441 := by
    have h1 : sample_rate * (-(1 / 100)) = -(sample_rate * bit_duration) := by
      rw [bit_duration]
      ring
    unfold pyTrunc
    rw [h1, if_pos, neg_neg]
    · have h2 : sample_rate * bit_duration = ((441 : ℕ) : ℚ) := by
        norm_num [sample_rate, bit_duration]
      rw [h2, Int.floor_natCast]
      rfl
    · have h2 : sample_rate * bit_duration = ((441 : ℕ) : ℚ) := by
        norm_num [sample_rate, bit_duration]
      rw [h2]
      norm_num
  refine ⟨by norm_num, generate_sine_wave_ok _ _ _ _ (by rw [ref_trunc]; norm_num), ?_, ?_, ?_⟩
  · rw [sineSamples_length, c1w_trunc]
  · unfold generate_sine_wave
    rw [if_pos (by rw [hneg]; norm_num)]
  · have h0 : pyTrunc (sample_rate * 0) = 0 := by
      rw [mul_zero]
      unfold pyTrunc
      rw [if_neg (by norm_num)]
      exact Int.floor_zero
    unfold generate_sine_wave
    rw [if_neg (by rw [h0]; norm_num)]
    unfold sineSamples
    rw [h0]
    rfl

/-- C9 amended: the synthesizer validates only the sample count
`int(sample_rate * duration)`: it raises when that count is negative,
returns the empty buffer when it is zero, and otherwise returns the full
buffer — the sign of the frequency is never checked, so non-positive
frequencies yield an ordinary (nonempty) buffer. -/
theorem c9_amended (s : ℚ → ℚ) (f d sr : ℚ) :
    (pyTrunc (sr * d) < 0 →
      generate_sine_wave s f d sr = .error "ValueError: Number of samples must be non-negative")
    ∧ (pyTrunc (sr * d) = 0 → generate_sine_wave s f d sr = .ok [])
    ∧ (0 ≤ pyTrunc (sr * d) →
        generate_sine_wave s f d sr = .ok (sineSamples s f d sr)
        ∧ (sineSamples s f d sr).length = (pyTrunc (sr * d)).toNat) := by
  refine ⟨?_, ?_, ?_⟩
  · intro h
    unfold generate_sine_wave
    rw [if_pos h]
  · intro h
    unfold generate_sine_wave
    rw [if_neg (by rw [h]; norm_num)]
    unfold sineSamples
    rw [h]
    rfl
  · intro h
    exact ⟨generate_sine_wave_ok s f d sr h, sineSamples_length s f d sr⟩

/-- C9 amended witness: the negative frequency -1 at the default duration
and sample rate takes the nonempty-buffer branch. -/
theorem c9_amended_witness :
    0 ≤ pyTrunc (sample_rate * bit_duration)
    ∧ (generate_sine_wave (fun _ => (0 : ℚ)) (-1) bit_duration sample_rate =
        .ok (sineSamples (fun _ => (0 : ℚ)) (-1) bit_duration sample_rate)
      ∧ (sineSamples (fun _ => (0 : ℚ)) (-1) bit_duration sample_rate).length =
          (pyTrunc (sample_rate * bit_duration)).toNat) :=
  ⟨by rw [ref_trunc]; norm_num,
    (c9_amended (fun _ => (0 : ℚ)) (-1) bit_duration sample_rate).2.2
      (by rw [ref_trunc]; norm_num)⟩

/-- C8: the capture callback never raises to the audio subsystem and never
blocks (it is a total function of the state): with a clean status, a block
offered to the full 100-capacity queue is dropped — the queue is unchanged
and a "Queue full" diagnostic is logged — while below capacity the block is
appended; the queue never exceeds 100 entries. -/
theorem c8_queue_overflow {α : Type} (status : ℕ) (indata : α) (st : CaptureState α) :
    ∃ st', audio_callback status indata st = .ok st'
      ∧ (status = 0 → 100 ≤ st.queue.length →
          st'.queue = st.queue ∧ st'.log = st.log ++ ["Queue full"])
      ∧ (status = 0 → st.queue.length < 100 →
          st'.queue = st.queue ++ [indata] ∧ st'.log = st.log)
      ∧ (status ≠ 0 → st'.queue = st.queue)
      ∧ (st.queue.length ≤ 100 → st'.queue.length ≤ 100) := by
  unfold audio_callback put_nowait
  by_cases hs : status ≠ 0
  · rw [if_pos hs]
    exact ⟨_, rfl, fun h0 => absurd h0 hs, fun h0 => absurd h0 hs, fun _ => rfl, fun h => h⟩
  · rw [if_neg hs]
    push_neg at hs
    by_cases hq : 100 ≤ st.queue.length
    · rw [if_pos ⟨by norm_num, hq⟩]
      exact ⟨_, rfl, fun _ _ => ⟨rfl, rfl⟩, fun _ hlt => absurd hq (not_le.mpr hlt),
        fun h0 => absurd hs h0, fun h => h⟩
    · rw [if_neg (fun hc => hq hc.2)]
      refine ⟨_, rfl, fun _ hge => absurd hge hq, fun _ _ => ⟨rfl, rfl⟩,
        fun h0 => absurd hs h0, ?_⟩
      intro _
      rw [List.length_append, List.length_singleton]
      omega

/-- C8 witness: a block offered to a full queue of 100 entries with a clean
status. -/
theorem c8_witness :
    ∃ st', audio_callback 0 (7 : ℕ) (CaptureState.mk (List.replicate 100 0) []) = .ok st'
      ∧ (0 = 0 → 100 ≤ (CaptureState.mk (List.replicate 100 (0 : ℕ)) []).queue.length →
          st'.queue = (CaptureState.mk (List.replicate 100 (0 : ℕ)) []).queue
          ∧ st'.log = (CaptureState.mk (List.replicate 100 (0 : ℕ)) []).log ++ ["Queue full"])
      ∧ (0 = 0 → (CaptureState.mk (List.replicate 100 (0 : ℕ)) []).queue.length < 100 →
          st'.queue = (CaptureState.mk (List.replicate 100 (0 : ℕ)) []).queue ++ [7]
          ∧ st'.log = (CaptureState.mk (List.replicate 100 (0 : ℕ)) []).log)
      ∧ ((0 : ℕ) ≠ 0 → st'.queue = (CaptureState.mk (List.replicate 100 (0 : ℕ)) []).queue)
      ∧ ((CaptureState.mk (List.replicate 100 (0 : ℕ)) []).queue.length ≤ 100 →
          st'.queue.length ≤ 100) :=
  c8_queue_overflow 0 7 (CaptureState.mk (List.replicate 100 0) [])

theorem bitsToAsciiAux_spec :
    ∀ fuel bits acc, bits.length ≤ fuel →
      bitsToAsciiAux fuel bits acc =
        (bits.drop (8 * (bits.length / 8)),
         acc ++ (List.range (bits.length / 8)).map
           (fun i => tryByteChar ((bits.drop (8 * i)).take 8))) := by
  intro fuel
  induction fuel with
  | zero =>
    intro bits acc hlen
    have hnil : bits = [] := List.eq_nil_of_length_eq_zero (Nat.le_zero.mp hlen)
    subst hnil
    simp [bitsToAsciiAux]
  | succ fuel ih =>
    intro bits acc hlen
    unfold bitsToAsciiAux
    by_cases h8 : 8 ≤ bits.length
    · rw [if_pos h8]
      rw [ih (bits.drop 8) _ (by rw [List.length_drop]; omega)]
      have hq : bits.length / 8 = (bits.drop 8).length / 8 + 1 := by
        rw [List.length_drop]
        omega
      rw [Prod.mk.injEq]
      constructor
      · rw [List.drop_drop]
        have hd : (bits.drop 8).length = bits.length - 8 := List.length_drop 8 bits
        congr 1
        omega
      · rw [List.append_assoc]
        congr 1
        rw [hq, List.range_succ_eq_map, List.map_cons, List.map_map]
        rw [Nat.mul_zero, List.drop_zero, List.singleton_append]
        congr 1
        apply List.map_congr_left
        intro i _
        simp only [Function.comp]
        rw [List.drop_drop]
        rw [show 8 + 8 * i = 8 * Nat.succ i from by omega]
    · rw [if_neg h8]
      have hq0 : bits.length / 8 = 0 := by omega
      rw [hq0, Nat.mul_zero, List.drop_zero]
      simp

theorem parseFold_lt (cs : List Char) :
    ∀ a : ℕ, cs.foldl (fun a c => 2 * a + (if c = '1' then 1 else 0)) a
      < (a + 1) * 2 ^ cs.length := by
  induction cs with
  | nil =>
    intro a
    simp
  | cons c t ih =>
    intro a
    rw [List.foldl_cons]
    calc t.foldl (fun a c => 2 * a + (if c = '1' then 1 else 0))
          (2 * a + (if c = '1' then 1 else 0))
        < (2 * a + (if c = '1' then 1 else 0) + 1) * 2 ^ t.length := ih _
      _ ≤ (a + 1) * 2 ^ (c :: t).length := by
          rw [List.length_cons, pow_succ]
          have hb : (if c = '1' then 1 else 0) ≤ 1 := by split_ifs <;> norm_num
          calc (2 * a + (if c = '1' then 1 else 0) + 1) * 2 ^ t.length
              ≤ ((a + 1) * 2) * 2 ^ t.length := by
                apply Nat.mul_le_mul_right
                omega
            _ = (a + 1) * (2 ^ t.length * 2) := by ring

theorem parseBin_of_bits (cs : List Char) (hne : cs ≠ [])
    (hbits : ∀ c ∈ cs, c = '0' ∨ c = '1') :
    parseBin cs = .ok (cs.foldl (fun a c => 2 * a + (if c = '1' then 1 else 0)) 0)
    ∧ cs.foldl (fun a c => 2 * a + (if c = '1' then 1 else 0)) 0 < 2 ^ cs.length := by
  constructor
  · match cs, hne with
    | c :: rest, _ =>
      have heq : parseBin (c :: rest) =
          if ((c :: rest).all fun x => decide (x = '0' ∨ x = '1')) = true then
            .ok ((c :: rest).foldl (fun a x => 2 * a + (if x = '1' then 1 else 0)) 0)
          else .error "ValueError: invalid literal for int() with base 2" := rfl
      have hcond : ((c :: rest).all fun x => decide (x = '0' ∨ x = '1')) = true := by
        rw [List.all_eq_true]
        intro x hx
        rw [decide_eq_true_eq]
        exact hbits x hx
      rw [heq, if_pos hcond]
  · have := parseFold_lt cs 0
    omega

/-- C7: feeding a buffered bit string to the assembler removes 8 bits at a
time while at least 8 remain; each removed group parses most significant bit
first to a value below 256 and becomes the character of that codepoint (the
'?' substitution is reserved for failed conversions, which cannot occur on
binary digits), the accumulated output grows by exactly one character per
full byte, and the trailing partial group of fewer than 8 bits is left in
the residual buffer untouched. -/
theorem c7_assembler (bits : List Char) (hbits : ∀ c ∈ bits, c = '0' ∨ c = '1') :
    bits_to_ascii bits =
      (bits.drop (8 * (bits.length / 8)),
       (List.range (bits.length / 8)).map (fun i => tryByteChar ((bits.drop (8 * i)).take 8)))
    ∧ (bits_to_ascii bits).1.length = bits.length % 8
    ∧ (bits_to_ascii bits).2.length = bits.length / 8
    ∧ (∀ i, i < bits.length / 8 →
        ∃ v, v < 256 ∧ parseBin ((bits.drop (8 * i)).take 8) = .ok v
          ∧ tryByteChar ((bits.drop (8 * i)).take 8) = Char.ofNat v) := by
  have hspec := bitsToAsciiAux_spec bits.length bits [] (le_refl _)
  have hmain : bits_to_ascii bits =
      (bits.drop (8 * (bits.length / 8)),
       (List.range (bits.length / 8)).map
         (fun i => tryByteChar ((bits.drop (8 * i)).take 8))) := by
    unfold bits_to_ascii
    rw [hspec]
    rw [List.nil_append]
  refine ⟨hmain, ?_, ?_, ?_⟩
  · rw [hmain, List.length_drop]
    omega
  · rw [hmain]
    rw [List.length_map, List.length_range]
  · intro i hi
    have hslice : ((bits.drop (8 * i)).take 8).length = 8 := by
      rw [List.length_take, List.length_drop]
      have : 8 * (i + 1) ≤ 8 * (bits.length / 8) := Nat.mul_le_mul_left 8 hi
      have : 8 * (bits.length / 8) ≤ bits.length := Nat.mul_div_le bits.length 8
      omega
    have hsub : ∀ c ∈ (bits.drop (8 * i)).take 8, c = '0' ∨ c = '1' := by
      intro c hc
      exact hbits c (List.mem_of_mem_drop (List.mem_of_mem_take hc))
    have hne : (bits.drop (8 * i)).take 8 ≠ [] := by
      intro h
      rw [h] at hslice
      simp at hslice
    obtain ⟨hparse, hlt⟩ := parseBin_of_bits _ hne hsub
    rw [hslice] at hlt
    have h256 : (2 : ℕ) ^ 8 = 256 := by norm_num
    refine ⟨_, by omega, hparse, ?_⟩
    unfold tryByteChar
    rw [hparse]
    show (if _ < 1114112 then Char.ofNat _ else '?') = Char.ofNat _
    rw [if_pos (by omega)]

/-- C7 witness: ten bits — one full byte 0x48 ('H') and a trailing pair of
bits left buffered. -/
theorem c7_witness :
    bits_to_ascii ['0', '1', '0', '0', '1', '0', '0', '0', '0', '1'] =
      (['0', '1', '0', '0', '1', '0', '0', '0', '0', '1'].drop
        (8 * (['0', '1', '0', '0', '1', '0', '0', '0', '0', '1'].length / 8)),
       (List.range (['0', '1', '0', '0', '1', '0', '0', '0', '0', '1'].length / 8)).map
         (fun i => tryByteChar
           ((['0', '1', '0', '0', '1', '0', '0', '0', '0', '1'].drop (8 * i)).take 8))) :=
  (c7_assembler ['0', '1', '0', '0', '1', '0', '0', '0', '0', '1'] (by decide)).1

theorem natBitsAux_fuel :
    ∀ f1 f2 n, n ≤ f1 → n ≤ f2 → natBitsAux f1 n = natBitsAux f2 n := by
  intro f1
  induction f1 with
  | zero =>
    intro f2 n h1 _
    have hn : n = 0 := Nat.le_zero.mp h1
    subst hn
    cases f2 <;> rfl
  | succ f1 ih =>
    intro f2 n h1 h2
    cases n with
    | zero => cases f2 <;> rfl
    | succ m =>
      cases f2 with
      | zero => omega
      | succ f2' =>
        show natBitsAux f1 ((m + 1) / 2) ++ [(m + 1) % 2 == 1]
          = natBitsAux f2' ((m + 1) / 2) ++ [(m + 1) % 2 == 1]
        rw [ih f2' ((m + 1) / 2) (by omega) (by omega)]

theorem natBits_zero : natBits 0 = [] := rfl

theorem natBits_succ (n : ℕ) (hn : n ≠ 0) :
    natBits n = natBits (n / 2) ++ [n % 2 == 1] := by
  cases n with
  | zero => exact absurd rfl hn
  | succ m =>
    show natBitsAux (m + 1) (m + 1) = natBitsAux ((m + 1) / 2) ((m + 1) / 2) ++ [(m + 1) % 2 == 1]
    have hstep : natBitsAux (m + 1) (m + 1)
        = natBitsAux m ((m + 1) / 2) ++ [(m + 1) % 2 == 1] := rfl
    rw [hstep, natBitsAux_fuel m ((m + 1) / 2) ((m + 1) / 2) (by omega) (le_refl _)]

theorem natBits_length_le : ∀ k n, n < 2 ^ k → (natBits n).length ≤ k := by
  intro k
  induction k with
  | zero =>
    intro n hn
    have : n = 0 := by omega
    subst this
    rw [natBits_zero]
    simp
  | succ k ih =>
    intro n hn
    by_cases h0 : n = 0
    · subst h0
      rw [natBits_zero]
      simp
    · rw [natBits_succ n h0, List.length_append, List.length_singleton]
      have hpow : 2 ^ (k + 1) = 2 ^ k * 2 := pow_succ 2 k
      have hdiv : n / 2 < 2 ^ k := by omega
      have := ih (n / 2) hdiv
      omega

theorem bitsVal_from (l : List Bool) :
    ∀ a : ℕ, l.foldl (fun x b => 2 * x + b.toNat) a = a * 2 ^ l.length + bitsVal l := by
  induction l with
  | nil =>
    intro a
    simp [bitsVal]
  | cons b t ih =>
    intro a
    rw [List.foldl_cons, ih (2 * a + b.toNat)]
    have hv : bitsVal (b :: t) = b.toNat * 2 ^ t.length + bitsVal t := by
      unfold bitsVal
      rw [List.foldl_cons]
      have := ih b.toNat
      simpa using this
    rw [hv, List.length_cons, pow_succ]
    ring

theorem bitsVal_append (l1 l2 : List Bool) :
    bitsVal (l1 ++ l2) = bitsVal l1 * 2 ^ l2.length + bitsVal l2 := by
  unfold bitsVal
  rw [List.foldl_append]
  exact bitsVal_from l2 _

theorem bitsVal_eq_zero_iff (l : List Bool) : bitsVal l = 0 ↔ ∀ b ∈ l, b = false := by
  induction l with
  | nil => simp [bitsVal]
  | cons b t ih =>
    have hv : bitsVal (b :: t) = b.toNat * 2 ^ t.length + bitsVal t := by
      unfold bitsVal
      rw [List.foldl_cons]
      have := bitsVal_from t b.toNat
      simpa using this
    rw [hv]
    cases b with
    | false =>
      simp only [Bool.toNat_false, Nat.zero_mul, Nat.zero_add]
      rw [ih]
      simp
    | true =>
      simp only [Bool.toNat_true, Nat.one_mul]
      have hpos : 0 < 2 ^ t.length := Nat.pos_pow_of_pos t.length (by norm_num)
      constructor
      · intro h
        omega
      · intro h
        exact absurd (h true (by simp)) (by simp)

theorem dropWhile_allFalse (l : List Bool) (h : ∀ b ∈ l, b = false) :
    l.dropWhile (fun b => !b) = [] := by
  induction l with
  | nil => rfl
  | cons b t ih =>
    have hb : b = false := h b (by simp)
    subst hb
    rw [List.dropWhile_cons]
    simp only [Bool.not_false, if_true]
    exact ih (fun x hx => h x (by simp [hx]))

theorem dropWhile_allFalse_append (l r : List Bool) (h : ∀ b ∈ l, b = false) :
    (l ++ r).dropWhile (fun b => !b) = r.dropWhile (fun b => !b) := by
  induction l with
  | nil => rfl
  | cons b t ih =>
    have hb : b = false := h b (by simp)
    subst hb
    rw [List.cons_append, List.dropWhile_cons]
    simp only [Bool.not_false, if_true]
    exact ih (fun x hx => h x (by simp [hx]))

theorem dropWhile_append_of_ne (l r : List Bool) (h : l.dropWhile (fun b => !b) ≠ []) :
    (l ++ r).dropWhile (fun b => !b) = l.dropWhile (fun b => !b) ++ r := by
  induction l with
  | nil => exact absurd rfl h
  | cons b t ih =>
    cases b with
    | false =>
      rw [List.cons_append, List.dropWhile_cons, List.dropWhile_cons] at *
      simp only [Bool.not_false, if_true] at *
      exact ih h
    | true =>
      rw [List.cons_append, List.dropWhile_cons, List.dropWhile_cons]
      simp

theorem natBits_bitsVal (l : List Bool) :
    natBits (bitsVal l) = l.dropWhile (fun b => !b) := by
  induction l using List.reverseRecOn with
  | nil => rfl
  | append_singleton M b ih =>
    have hval : bitsVal (M ++ [b]) = bitsVal M * 2 + b.toNat := by
      rw [bitsVal_append]
      have h1 : bitsVal [b] = b.toNat := by
        unfold bitsVal
        rw [List.foldl_cons, List.foldl_nil]
        omega
      rw [h1, List.length_singleton, pow_one]
    by_cases hz : bitsVal M * 2 + b.toNat = 0
    · have hM0 : bitsVal M = 0 := by omega
      have hb0 : b = false := by
        cases b
        · rfl
        · simp [Bool.toNat_true] at hz
      subst hb0
      rw [hval, hz, natBits_zero]
      have hall : ∀ x ∈ M ++ [false], x = false := by
        intro x hx
        rcases List.mem_append.mp hx with hx | hx
        · exact (bitsVal_eq_zero_iff M).mp hM0 x hx
        · simpa using hx
      exact (dropWhile_allFalse _ hall).symm
    · rw [hval, natBits_succ _ hz]
      have hdiv : (bitsVal M * 2 + b.toNat) / 2 = bitsVal M := by
        cases b <;> simp [Bool.toNat] <;> omega
      have hmod : ((bitsVal M * 2 + b.toNat) % 2 == 1) = b := by
        cases b <;> simp [Bool.toNat] <;> omega
      rw [hdiv, hmod, ih]
      by_cases hM : M.dropWhile (fun b => !b) = []
      · rw [hM, List.nil_append]
        have hM0 : bitsVal M = 0 := by
          rw [bitsVal_eq_zero_iff]
          intro x hx
          have := List.dropWhile_eq_nil_iff.mp hM x hx
          simpa using this
        have hb : b = true := by
          cases b
          · rw [hM0] at hz
            simp at hz
          · rfl
        subst hb
        rw [dropWhile_allFalse_append M [true]
          (fun x hx => by
            have := List.dropWhile_eq_nil_iff.mp hM x hx
            simpa using this)]
        rfl
      · exact (dropWhile_append_of_ne M [b] hM).symm

theorem byteBits_length (b : ℕ) : (byteBits b).length = 8 := by
  unfold byteBits
  rw [List.length_map, List.length_range]

theorem bitsVal_byteBits : ∀ b, b < 256 → bitsVal (byteBits b) = b := by
  decide

theorem bytesToNat_from (bytes : List ℕ) (hb : ∀ b ∈ bytes, b < 256) :
    ∀ a : ℕ, bytes.foldl (fun x b => 256 * x + b) a < (a + 1) * 256 ^ bytes.length := by
  induction bytes with
  | nil =>
    intro a
    simp
  | cons r t ih =>
    intro a
    rw [List.foldl_cons]
    have hr : r < 256 := hb r (by simp)
    calc t.foldl (fun x b => 256 * x + b) (256 * a + r)
        < (256 * a + r + 1) * 256 ^ t.length := ih (fun x hx => hb x (by simp [hx])) _
      _ ≤ (a + 1) * 256 ^ (r :: t).length := by
          rw [List.length_cons, pow_succ]
          calc (256 * a + r + 1) * 256 ^ t.length
              ≤ ((a + 1) * 256) * 256 ^ t.length := by
                apply Nat.mul_le_mul_right
                omega
            _ = (a + 1) * (256 ^ t.length * 256) := by ring

theorem bitsVal_flatMap_byteBits (bytes : List ℕ) (hb : ∀ b ∈ bytes, b < 256) :
    bitsVal (bytes.flatMap byteBits) = bytesToNat bytes := by
  induction bytes using List.reverseRecOn with
  | nil => rfl
  | append_singleton M b ih =>
    have hbM : ∀ x ∈ M, x < 256 := fun x hx => hb x (by simp [hx])
    have hbb : b < 256 := hb b (by simp)
    rw [List.flatMap_append, bitsVal_append]
    have h1 : ([b] : List ℕ).flatMap byteBits = byteBits b := by simp
    rw [h1, byteBits_length, bitsVal_byteBits b hbb, ih hbM]
    unfold bytesToNat
    rw [List.foldl_append, List.foldl_cons, List.foldl_nil]
    norm_num
    ring

/-- C3: the server-side encoding folds the whole message into one big-endian
integer and takes its binary digits, so whenever the leading byte is below
128 (its high bit is zero, in particular for a leading null byte) the digit
string is strictly shorter than `8 * byte_count`; the digits that survive
are exactly the concatenated most-significant-bit-first byte bits with the
leading zero bits stripped.  Here the "bit string" is the digit portion of
`bin(...)` after the `0b` prefix. -/
theorem c3_encoding (bytes : List ℕ) (hne : bytes ≠ [])
    (hb : ∀ b ∈ bytes, b < 256) (hh : bytes.headI < 128) :
    (pyBinDigits (bytesToNat bytes)).length < 8 * bytes.length
    ∧ natBits (bytesToNat bytes) = (bytes.flatMap byteBits).dropWhile (fun b => !b)
    ∧ (bytesToNat bytes ≠ 0 →
        pyBinDigits (bytesToNat bytes) =
          ((bytes.flatMap byteBits).dropWhile (fun b => !b)).map
            (fun b => if b then '1' else '0')) := by
  have hdrop : natBits (bytesToNat bytes)
      = (bytes.flatMap byteBits).dropWhile (fun b => !b) := by
    rw [← bitsVal_flatMap_byteBits bytes hb]
    exact natBits_bitsVal _
  refine ⟨?_, hdrop, ?_⟩
  · match bytes, hne with
    | b0 :: rest, _ =>
      have hb0 : b0 < 128 := by simpa using hh
      have hbrest : ∀ x ∈ rest, x < 256 := fun x hx => hb x (by simp [hx])
      have hval : bytesToNat (b0 :: rest) < 2 ^ (8 * rest.length + 7) := by
        have h1 : bytesToNat (b0 :: rest)
            = rest.foldl (fun x b => 256 * x + b) b0 := by
          unfold bytesToNat
          rw [List.foldl_cons]
          norm_num
        have h2 := bytesToNat_from rest hbrest b0
        have h3 : (b0 + 1) * 256 ^ rest.length ≤ 2 ^ (8 * rest.length + 7) := by
          have h4 : (256 : ℕ) ^ rest.length = 2 ^ (8 * rest.length) := by
            rw [show (256 : ℕ) = 2 ^ 8 from by norm_num, ← pow_mul]
          rw [h4, pow_add]
          rw [Nat.mul_comm (2 ^ (8 * rest.length)) (2 ^ 7)]
          apply Nat.mul_le_mul_right
          norm_num
          omega
        rw [h1]
        exact lt_of_lt_of_le h2 h3
      have hlen : (natBits (bytesToNat (b0 :: rest))).length ≤ 8 * rest.length + 7 :=
        natBits_length_le _ _ hval
      unfold pyBinDigits
      by_cases h0 : bytesToNat (b0 :: rest) = 0
      · rw [if_pos h0]
        simp only [List.length_singleton, List.length_cons, List.length_nil]
        omega
      · rw [if_neg h0, List.length_map]
        simp only [List.length_cons, List.length_nil]
        omega
  · intro h0
    unfold pyBinDigits
    rw [if_neg h0, hdrop]

/-- C3 witness: the two-byte message `0x00 0x48` (a leading null byte): its
digit string has 7 characters, strictly fewer than 16. -/
theorem c3_witness :
    (pyBinDigits (bytesToNat [0, 72])).length < 8 * ([0, 72] : List ℕ).length
    ∧ natBits (bytesToNat [0, 72]) = (([0, 72] : List ℕ).flatMap byteBits).dropWhile
        (fun b => !b)
    ∧ (bytesToNat [0, 72] ≠ 0 →
        pyBinDigits (bytesToNat [0, 72]) =
          ((([0, 72] : List ℕ).flatMap byteBits).dropWhile (fun b => !b)).map
            (fun b => if b then '1' else '0')) :=
  c3_encoding [0, 72] (by decide) (by decide) (by decide)

end Commdio
